import Mathlib

set_option allowUnsafeReducibility true
attribute [local semireducible] Rat.add Rat.sub Rat.mul Rat.div Rat.inv Rat.neg Rat.normalize Rat.maybeNormalize

/-
  Verification of the TOC layout engine in src/script/create_toc_hypl.py.
  The rational-number primitives above are restored to their default
  reducibility inside this file only, so that concrete witness layouts can be
  evaluated by `decide`; no proof relies on anything beyond their definitions.

  Modelling conventions:
  * The external text-metrics service (fitz.get_text_length) is an explicit
    parameter `measure : String → ℚ → ℚ` mapping (text, fontsize) to a width.
  * Python floats are modelled as rationals, Python ints as Int.
  * PyMuPDF side effects are modelled by recording the data the script hands
    to them: text insertions become `TextOp`s collected per generated page,
    `insert_link` calls become `Link` records, `set_toc` receives the shifted
    outline list.  `fitz.paper_size("a4")` is the PyMuPDF constant (595, 842).
  * Python `page_num + offset` raises TypeError on a non-integer page field;
    this is modelled by `shift_bookmark_pages` returning an `Option`.
-/

/-- Python str.split with no arguments, on the underlying character list:
split on runs of whitespace, dropping empty pieces.  `splitWSAux cs acc`
processes `cs` with `acc` holding the current in-progress word, reversed. -/
def splitWSAux : List Char → List Char → List (List Char)
  | [], acc => if acc = [] then [] else [acc.reverse]
  | c :: cs, acc =>
    if c.isWhitespace then
      if acc = [] then splitWSAux cs [] else acc.reverse :: splitWSAux cs []
    else
      splitWSAux cs (c :: acc)

/-- Python `text.split()` (used at line 31 of the source). -/
def pySplit (s : String) : List String :=
  (splitWSAux s.data []).map String.mk

/-- Words joined by single spaces, the shape the wrapper's accumulator takes. -/
def joinWords : List String → String
  | [] => ""
  | [w] => w
  | w :: ws => w ++ " " ++ joinWords ws

/-- Loop body of wrap_text (source lines 31-44): greedy word wrap over the
word list, with `current_line` the accumulator; the final non-empty
accumulator is emitted. -/
def wrapWords (measure : String → ℚ → ℚ) (font_size max_width : ℚ)
    (words : List String) (current_line : String) : List String :=
  match words with
  | [] => if current_line = "" then [] else [current_line]
  | word :: ws =>
    let test_line := if current_line = "" then word else current_line ++ " " ++ word
    if measure test_line font_size ≤ max_width then
      wrapWords measure font_size max_width ws test_line
    else
      if current_line = "" then wrapWords measure font_size max_width ws word
      else current_line :: wrapWords measure font_size max_width ws word

/-- wrap_text (source lines 30-44): split the text into words, wrap greedily. -/
def wrap_text (measure : String → ℚ → ℚ) (text : String) (font_size max_width : ℚ) :
    List String :=
  wrapWords measure font_size max_width (pySplit text) ""

/-- Ghost version of the wrapper that keeps the current line as its word list
instead of a joined string; used to reason about word conservation. -/
def wrapChunks (measure : String → ℚ → ℚ) (font_size max_width : ℚ)
    (words : List String) (cur : List String) : List (List String) :=
  match words with
  | [] => if cur = [] then [] else [cur]
  | word :: ws =>
    if measure (joinWords (cur ++ [word])) font_size ≤ max_width then
      wrapChunks measure font_size max_width ws (cur ++ [word])
    else
      if cur = [] then wrapChunks measure font_size max_width ws [word]
      else cur :: wrapChunks measure font_size max_width ws [word]

/-- One extracted TOC entry `(level, title, target_page)`; `target_page` is the
zero-based index into the original document (source line 27). -/
structure TocEntry where
  level : Int
  title : String
  target_page : Int
deriving DecidableEq, Repr

/-- Python `s.strip()`: remove leading and trailing whitespace. -/
def pyStrip (s : String) : String :=
  String.mk ((s.data.dropWhile Char.isWhitespace).reverse.dropWhile Char.isWhitespace).reverse

/-- extract_toc_entries (source lines 22-28), over the raw
`doc.get_toc(simple=True)` triples supplied by PyMuPDF. -/
def extract_toc_entries (toc : List (Int × String × Int)) : List TocEntry :=
  toc.map fun t => ⟨t.1, pyStrip t.2.1, t.2.2 - 1⟩

/-- Wrapped lines of one entry as computed inside paginate_wrapped_entries
(source lines 52-55): indent 20*(level-1), width reduced by the indent. -/
def wrapped_lines_of (measure : String → ℚ → ℚ) (font_size max_width : ℚ)
    (e : TocEntry) : List String :=
  wrap_text measure e.title font_size (max_width - 20 * ((e.level : ℚ) - 1))

/-- Loop of paginate_wrapped_entries (source lines 51-67), with the running
page and running line count as explicit accumulators. -/
def paginate_aux (measure : String → ℚ → ℚ) (font_size max_width : ℚ)
    (lines_per_page : Int) (toc_entries : List TocEntry)
    (current_page_entries : List (TocEntry × List String)) (current_line_count : Int) :
    List (List (TocEntry × List String)) :=
  match toc_entries with
  | [] =>
    if current_page_entries = [] then [] else [current_page_entries]
  | e :: es =>
    let wrapped := wrapped_lines_of measure font_size max_width e
    let line_count : Int := wrapped.length
    if lines_per_page < current_line_count + line_count then
      current_page_entries ::
        paginate_aux measure font_size max_width lines_per_page es [(e, wrapped)] line_count
    else
      paginate_aux measure font_size max_width lines_per_page es
        (current_page_entries ++ [(e, wrapped)]) (current_line_count + line_count)

/-- paginate_wrapped_entries (source lines 46-69). -/
def paginate_wrapped_entries (measure : String → ℚ → ℚ) (toc_entries : List TocEntry)
    (font_size max_width : ℚ) (lines_per_page : Int) :
    List (List (TocEntry × List String)) :=
  paginate_aux measure font_size max_width lines_per_page toc_entries [] 0

/-- Used line count of a layout page: the sum of its entries' line counts
(the value the running counter `current_line_count` holds for that page). -/
def page_line_count (p : List (TocEntry × List String)) : Int :=
  (p.map fun t => ((t.2.length : Int))).sum

/-- Python `int(q)` on a float: truncation toward zero. -/
def pytrunc (q : ℚ) : Int :=
  if 0 ≤ q then ⌊q⌋ else -⌊-q⌋

/-- Geometry constant of generate_toc_pages (source line 74). -/
def left_margin : ℚ := 50

/-- Geometry constant of generate_toc_pages (source line 75). -/
def right_margin : ℚ := 60

/-- Geometry constant of generate_toc_pages (source line 76). -/
def top_margin : ℚ := 50

/-- One `page.insert_text((x, y), text, fontsize=...)` call. -/
structure TextOp where
  x : ℚ
  y : ℚ
  text : String
deriving DecidableEq, Repr

/-- An axis-aligned rectangle, as `fitz.Rect(x0, y0, x1, y1)`. -/
structure Rect where
  x0 : ℚ
  y0 : ℚ
  x1 : ℚ
  y1 : ℚ
deriving DecidableEq, Repr

/-- One generated TOC page: the dimensions passed to `toc_doc.new_page` and
the text insertions performed on it, in order. -/
structure TocPage where
  width : ℚ
  height : ℚ
  ops : List TextOp
deriving DecidableEq, Repr

/-- Inner loop of generate_toc_pages (source lines 93-108) over the wrapped
lines of one entry: every line but the last is inserted bare; the last line
gets leader dots appended and the page-number string inserted right-aligned.
Returns the insertions and the y cursor after the entry. -/
def render_entry_lines (measure : String → ℚ → ℚ) (font_size x max_x_for_dots pn_x : ℚ)
    (page_number_str : String) (y_spacing : ℚ)
    (wrapped_lines : List String) (y : ℚ) : List TextOp × ℚ :=
  match wrapped_lines with
  | [] => ([], y)
  | [line] =>
    let line_width := measure line font_size
    let dots_space := max_x_for_dots - (x + line_width + 10)
    let dot_count : Int := max 0 (pytrunc (dots_space / measure "." font_size))
    let dots := String.mk (List.replicate dot_count.toNat '.')
    ([⟨x, y, line ++ " " ++ dots⟩, ⟨pn_x, y, page_number_str⟩], y + y_spacing)
  | line :: rest =>
    let r := render_entry_lines measure font_size x max_x_for_dots pn_x
      page_number_str y_spacing rest (y + y_spacing)
    (⟨x, y, line⟩ :: r.1, r.2)

/-- Body of the per-entry loop of generate_toc_pages (source lines 84-111):
computes the indent, page-number string and dot column, renders the lines,
and forms the hyperlink rectangle from the first line's y and the y cursor
after the last line.  Returns (insertions, rectangle, new y cursor). -/
def render_entry (measure : String → ℚ → ℚ) (font_size page_width : ℚ)
    (toc_page_count : Nat) (e : TocEntry) (wrapped_lines : List String) (y : ℚ) :
    List TextOp × Rect × ℚ :=
  let indent : ℚ := 20 * ((e.level : ℚ) - 1)
  let x := left_margin + indent
  let page_number_str := toString (e.target_page + (toc_page_count : Int) + 1)
  let page_number_width := measure page_number_str font_size
  let max_x_for_dots := page_width - right_margin - page_number_width - 5
  let y_spacing := font_size * (3 / 2)
  let r := render_entry_lines measure font_size x max_x_for_dots
    (page_width - right_margin - page_number_width) page_number_str y_spacing
    wrapped_lines y
  (r.1, ⟨x, y - font_size, page_width - right_margin, r.2⟩, r.2)

/-- Per-page loop of generate_toc_pages over the page's entries, threading the
y cursor; collects the insertions and the (rectangle, target page) pairs. -/
def render_page_entries (measure : String → ℚ → ℚ) (font_size page_width : ℚ)
    (toc_page_count : Nat) (entries : List (TocEntry × List String)) (y : ℚ) :
    List TextOp × List (Rect × Int) × ℚ :=
  match entries with
  | [] => ([], [], y)
  | (e, wrapped_lines) :: rest =>
    let r := render_entry measure font_size page_width toc_page_count e wrapped_lines y
    let rr := render_page_entries measure font_size page_width toc_page_count rest r.2.2
    (r.1 ++ rr.1, (r.2.1, e.target_page) :: rr.2.1, rr.2.2)

/-- generate_toc_pages (source lines 71-113): one new page of the given
dimensions per packed page, entries rendered from the top margin down, and the
accumulated link targets (source page index, rectangle, zero-based target). -/
def generate_toc_pages (measure : String → ℚ → ℚ)
    (paginated_entries : List (List (TocEntry × List String)))
    (font_size page_width page_height : ℚ) :
    List TocPage × List (Nat × Rect × Int) :=
  let toc_page_count := paginated_entries.length
  let rendered := paginated_entries.enum.map fun pi =>
    let r := render_page_entries measure font_size page_width toc_page_count pi.2 top_margin
    (TocPage.mk page_width page_height r.1, r.2.1.map fun rt => (pi.1, rt.1, rt.2))
  (rendered.map Prod.fst, (rendered.map Prod.snd).flatten)

/-- One `insert_link` dictionary written by add_toc_hyperlinks. -/
structure Link where
  toc_page_index : Nat
  src : Rect
  dest : Int
deriving DecidableEq, Repr

/-- add_toc_hyperlinks (source lines 115-121): each link target becomes a
LINK_GOTO link on its TOC page with destination target_page + toc_page_count. -/
def add_toc_hyperlinks (link_targets : List (Nat × Rect × Int))
    (toc_page_count : Int) : List Link :=
  link_targets.map fun t => ⟨t.1, t.2.1, t.2.2 + toc_page_count⟩

/-- A field of a raw outline entry as returned by `doc.get_toc()`: either an
integer (level, page) or a string (title). -/
inductive BmVal where
  | int (n : Int) : BmVal
  | str (s : String) : BmVal
deriving DecidableEq, Repr

/-- Python `page_num + offset`: defined only when the page field is an int
(otherwise Python raises TypeError). -/
def pyAddOffset : BmVal → Int → Option BmVal
  | .int n, offset => some (.int (n + offset))
  | .str _, _ => none

/-- shift_bookmark_pages (source lines 123-129): entries with fewer than three
fields are dropped; remaining entries keep their first two fields and have the
offset added to the third.  `none` models the TypeError Python would raise on
a non-integer page field. -/
def shift_bookmark_pages : List (List BmVal) → Int → Option (List (List BmVal))
  | [], _ => some []
  | bm :: rest, offset =>
    match bm with
    | level :: title :: page_num :: _ =>
      match pyAddOffset page_num offset with
      | none => none
      | some shifted_page =>
        (shift_bookmark_pages rest offset).map fun tl => [level, title, shifted_page] :: tl
    | _ => shift_bookmark_pages rest offset

/-- The `len(bm) >= 3` test of source line 126. -/
def bm_well_formed (bm : List BmVal) : Bool :=
  decide (3 ≤ bm.length)

/-- Image of one well-formed raw outline entry under the shift: first two
fields kept, third (when an integer) shifted.  Spec-side description of what
shift_bookmark_pages does to each kept entry. -/
def shifted_form (offset : Int) : List BmVal → List BmVal
  | level :: title :: .int n :: _ => [level, title, .int (n + offset)]
  | bm => bm

/-- PyMuPDF `fitz.paper_size("a4")` constant: 595 x 842 points. -/
def fitz_paper_size_a4 : ℚ × ℚ := (595, 842)

/-- Everything main (source lines 135-176) computes from its inputs, before
the Document Rendering Service persists it. -/
structure MainResult where
  entries : List TocEntry
  paginated : List (List (TocEntry × List String))
  toc_page_count : Nat
  toc_pages : List TocPage
  link_targets : List (Nat × Rect × Int)
  links : List Link
  bookmarks_out : Option (List (List BmVal))
deriving Repr

/-- Core of main (source lines 142-171), parameterised by the data the source
document supplies: its raw outline triples, its raw bookmark list, and its
page dimensions.  The source page dimensions are available to the script (it
has the document open) but are never read; they appear here as inputs so that
independence from them is statable. -/
def main_core (measure : String → ℚ → ℚ) (raw_toc : List (Int × String × Int))
    (original_bookmarks : List (List BmVal))
    (src_page_width src_page_height font_size : ℚ) : MainResult :=
  let lines_per_page : Int := 38
  let entries := extract_toc_entries raw_toc
  let width := fitz_paper_size_a4.1
  let height := fitz_paper_size_a4.2
  let max_width := width - 120
  let paginated := paginate_wrapped_entries measure entries font_size max_width lines_per_page
  let toc_page_count := paginated.length
  let gen := generate_toc_pages measure paginated font_size width height
  let links := add_toc_hyperlinks gen.2 (toc_page_count : Int)
  let bms := shift_bookmark_pages original_bookmarks (toc_page_count : Int)
  ⟨entries, paginated, toc_page_count, gen.1, gen.2, links, bms⟩

/-- Link targets as the spec describes them, one per entry in order: rectangle
from the entry's indented x and first line's top (baseline minus font size)
to the right margin and the y cursor after the entry's last line, with the
zero-based target page; the y cursor advances by lines * (font_size * 1.5)
per entry. -/
def spec_link_targets (font_size page_width : ℚ) (page_index : Nat)
    (entries : List (TocEntry × List String)) (y : ℚ) : List (Nat × Rect × Int) :=
  match entries with
  | [] => []
  | (e, wrapped_lines) :: rest =>
    let x := left_margin + 20 * ((e.level : ℚ) - 1)
    let y_end := y + (wrapped_lines.length : ℚ) * (font_size * (3 / 2))
    (page_index, Rect.mk x (y - font_size) (page_width - right_margin) y_end,
      e.target_page) :: spec_link_targets font_size page_width page_index rest y_end

/-- Width model used for concrete witnesses: each character one unit wide,
independent of the font size. -/
def mLen : String → ℚ → ℚ := fun s _ => (s.length : ℚ)

/- ### Basic string facts -/

lemma str_mk_data (s : String) : String.mk s.data = s := by
  cases s
  rfl

lemma str_eq_empty_iff (s : String) : s = "" ↔ s.data = [] := by
  cases s
  simp [String.ext_iff]

lemma str_append_data (a b : String) : (a ++ b).data = a.data ++ b.data :=
  String.data_append a b

lemma space_data : (" " : String).data = [' '] := rfl

/- ### The word splitter -/

lemma splitWSAux_words (l : List Char) :
    ∀ acc, (∀ c ∈ acc, ¬ c.isWhitespace) →
      ∀ w ∈ splitWSAux l acc, w ≠ [] ∧ ∀ c ∈ w, ¬ c.isWhitespace := by
  induction l with
  | nil =>
    intro acc hacc w hw
    by_cases h : acc = []
    · simp [splitWSAux, h] at hw
    · simp only [splitWSAux, if_neg h, List.mem_singleton] at hw
      subst hw
      refine ⟨by simpa using h, ?_⟩
      intro c hc
      exact hacc c (List.mem_reverse.mp hc)
  | cons c cs ih =>
    intro acc hacc w hw
    by_cases hws : c.isWhitespace
    · simp only [splitWSAux, if_pos hws] at hw
      by_cases h : acc = []
      · rw [if_pos h] at hw
        exact ih [] (by simp) w hw
      · rw [if_neg h] at hw
        rcases List.mem_cons.mp hw with heq | hmem
        · subst heq
          refine ⟨by simpa using h, ?_⟩
          intro d hd
          exact hacc d (List.mem_reverse.mp hd)
        · exact ih [] (by simp) w hmem
    · simp only [splitWSAux, if_neg hws] at hw
      refine ih (c :: acc) ?_ w hw
      intro d hd
      rcases List.mem_cons.mp hd with heq | hmem
      · subst heq; exact hws
      · exact hacc d hmem

lemma pySplit_words (s : String) :
    ∀ w ∈ pySplit s, w ≠ "" ∧ ∀ c ∈ w.data, ¬ c.isWhitespace := by
  intro w hw
  simp only [pySplit, List.mem_map] at hw
  obtain ⟨l, hl, rfl⟩ := hw
  obtain ⟨hne, hws⟩ := splitWSAux_words s.data [] (by simp) l hl
  exact ⟨by simpa [str_eq_empty_iff] using hne, hws⟩

lemma splitWSAux_append_word (w : List Char) (hw : ∀ c ∈ w, ¬ c.isWhitespace) :
    ∀ (l acc : List Char), splitWSAux (w ++ l) acc = splitWSAux l (w.reverse ++ acc) := by
  induction w with
  | nil => intro l acc; simp
  | cons c cs ih =>
    intro l acc
    have hc : ¬ c.isWhitespace := hw c (by simp)
    simp only [List.cons_append, splitWSAux, if_neg hc]
    rw [show cs.append l = cs ++ l from rfl, ih (fun d hd => hw d (by simp [hd])) l (c :: acc)]
    simp [List.append_assoc]

lemma splitWSAux_space (l acc : List Char) :
    splitWSAux (' ' :: l) acc =
      if acc = [] then splitWSAux l [] else acc.reverse :: splitWSAux l [] := by
  simp only [splitWSAux]
  rw [if_pos (by decide)]

/- ### Joining words back -/

lemma joinWords_cons₂ (w v : String) (ws : List String) :
    joinWords (w :: v :: ws) = w ++ " " ++ joinWords (v :: ws) := rfl

lemma joinWords_data_cons₂ (w v : String) (ws : List String) :
    (joinWords (w :: v :: ws)).data = w.data ++ ' ' :: (joinWords (v :: ws)).data := by
  rw [joinWords_cons₂, str_append_data, str_append_data, space_data]
  simp

lemma joinWords_snoc (c : List String) (w : String) :
    joinWords (c ++ [w]) = if c = [] then w else joinWords c ++ " " ++ w := by
  induction c with
  | nil => simp [joinWords]
  | cons a c ih =>
    cases c with
    | nil => simp [joinWords]
    | cons b c2 =>
      rw [if_neg (by simp)]
      have h1 : (a :: b :: c2) ++ [w] = a :: ((b :: c2) ++ [w]) := by simp
      rw [h1, show (b :: c2) ++ [w] = b :: (c2 ++ [w]) from by simp]
      rw [show (a :: b :: (c2 ++ [w])) = a :: b :: (c2 ++ [w]) from rfl]
      rw [joinWords_cons₂]
      rw [show b :: (c2 ++ [w]) = (b :: c2) ++ [w] from by simp, ih]
      rw [if_neg (by simp), joinWords_cons₂]
      apply String.ext
      simp [str_append_data]

lemma joinWords_ne_empty (c : List String) (hc : ∀ w ∈ c, w ≠ "") (h : c ≠ []) :
    joinWords c ≠ "" := by
  match c with
  | [w] => exact hc w (by simp)
  | w :: v :: ws =>
    intro habs
    have hd := congrArg String.data habs
    rw [joinWords_data_cons₂] at hd
    simp at hd

lemma joinWords_empty_iff (c : List String) (hc : ∀ w ∈ c, w ≠ "") :
    joinWords c = "" ↔ c = [] := by
  constructor
  · intro h
    by_contra hne
    exact joinWords_ne_empty c hc hne h
  · intro h; subst h; rfl

lemma splitWSAux_joinWords (c : List String)
    (h : ∀ w ∈ c, w ≠ "" ∧ ∀ ch ∈ w.data, ¬ ch.isWhitespace) :
    splitWSAux (joinWords c).data [] = c.map String.data := by
  induction c with
  | nil => rfl
  | cons w c ih =>
    cases c with
    | nil =>
      have hw := h w (by simp)
      have hne : w.data ≠ [] := by
        intro h0
        exact hw.1 ((str_eq_empty_iff w).mpr h0)
      show splitWSAux w.data [] = [w.data]
      rw [show w.data = w.data ++ ([] : List Char) from by simp,
        splitWSAux_append_word w.data hw.2 [] []]
      simp only [splitWSAux, List.append_nil]
      rw [if_neg (by simpa using hne)]
      simp
    | cons v ws =>
      have hw := h w (by simp)
      have hne : w.data ≠ [] := by
        intro h0
        exact hw.1 ((str_eq_empty_iff w).mpr h0)
      rw [joinWords_data_cons₂,
        splitWSAux_append_word w.data hw.2 (' ' :: (joinWords (v :: ws)).data) [],
        splitWSAux_space]
      rw [if_neg (by simpa using hne)]
      rw [ih (fun u hu => h u (by simp [hu]))]
      simp

lemma pySplit_joinWords (c : List String)
    (h : ∀ w ∈ c, w ≠ "" ∧ ∀ ch ∈ w.data, ¬ ch.isWhitespace) :
    pySplit (joinWords c) = c := by
  unfold pySplit
  rw [splitWSAux_joinWords c h, List.map_map]
  have : (String.mk ∘ String.data) = id := by
    funext s
    exact str_mk_data s
  rw [this, List.map_id]

/- ### Wrapper simulation: string accumulator vs word-chunk accumulator -/

lemma wrapWords_eq_wrapChunks (m : String → ℚ → ℚ) (fs mw : ℚ) (ws : List String)
    (hws : ∀ w ∈ ws, w ≠ "") :
    ∀ cur : List String, (∀ w ∈ cur, w ≠ "") →
      wrapWords m fs mw ws (joinWords cur) = (wrapChunks m fs mw ws cur).map joinWords := by
  induction ws with
  | nil =>
    intro cur hcur
    simp only [wrapWords, wrapChunks]
    by_cases h : cur = []
    · subst h
      simp [joinWords]
    · rw [if_neg ((joinWords_empty_iff cur hcur).not.mpr h), if_neg h]
      simp
  | cons w ws ih =>
    intro cur hcur
    have hw : w ≠ "" := hws w (by simp)
    have hws' : ∀ u ∈ ws, u ≠ "" := fun u hu => hws u (by simp [hu])
    have htest : (if joinWords cur = "" then w else joinWords cur ++ " " ++ w)
        = joinWords (cur ++ [w]) := by
      rw [joinWords_snoc]
      by_cases h : cur = []
      · rw [if_pos ((joinWords_empty_iff cur hcur).mpr h), if_pos h]
      · rw [if_neg ((joinWords_empty_iff cur hcur).not.mpr h), if_neg h]
    simp only [wrapWords, wrapChunks]
    rw [htest]
    by_cases hle : m (joinWords (cur ++ [w])) fs ≤ mw
    · rw [if_pos hle, if_pos hle]
      exact ih hws' (cur ++ [w]) (by
        intro u hu
        rcases List.mem_append.mp hu with h1 | h1
        · exact hcur u h1
        · simpa using (List.mem_singleton.mp h1) ▸ hw)
    · rw [if_neg hle, if_neg hle]
      by_cases h : cur = []
      · rw [if_pos ((joinWords_empty_iff cur hcur).mpr h), if_pos h]
        have := ih hws' [w] (by simpa using hw)
        simpa [joinWords] using this
      · rw [if_neg ((joinWords_empty_iff cur hcur).not.mpr h), if_neg h]
        rw [List.map_cons]
        congr 1
        have := ih hws' [w] (by simpa using hw)
        simpa [joinWords] using this

lemma wrapChunks_flatten (m : String → ℚ → ℚ) (fs mw : ℚ) (ws : List String) :
    ∀ cur, (wrapChunks m fs mw ws cur).flatten = cur ++ ws := by
  induction ws with
  | nil =>
    intro cur
    by_cases h : cur = []
    · simp [wrapChunks, h]
    · simp [wrapChunks, h]
  | cons w ws ih =>
    intro cur
    simp only [wrapChunks]
    by_cases hle : m (joinWords (cur ++ [w])) fs ≤ mw
    · rw [if_pos hle, ih]
      simp
    · rw [if_neg hle]
      by_cases h : cur = []
      · rw [if_pos h, ih, h]
        simp
      · rw [if_neg h]
        simp only [List.flatten_cons, ih]
        simp

lemma wrapChunks_width (m : String → ℚ → ℚ) (fs mw : ℚ) (ws : List String)
    (hws : ∀ w ∈ ws, m w fs ≤ mw) :
    ∀ cur, (cur ≠ [] → m (joinWords cur) fs ≤ mw) →
      ∀ chunk ∈ wrapChunks m fs mw ws cur, m (joinWords chunk) fs ≤ mw := by
  induction ws with
  | nil =>
    intro cur hcur chunk hchunk
    by_cases h : cur = []
    · simp [wrapChunks, h] at hchunk
    · simp only [wrapChunks, if_neg h, List.mem_singleton] at hchunk
      exact hchunk ▸ hcur h
  | cons w ws ih =>
    intro cur hcur chunk hchunk
    have hws' : ∀ u ∈ ws, m u fs ≤ mw := fun u hu => hws u (by simp [hu])
    simp only [wrapChunks] at hchunk
    by_cases hle : m (joinWords (cur ++ [w])) fs ≤ mw
    · rw [if_pos hle] at hchunk
      exact ih hws' (cur ++ [w]) (fun _ => hle) chunk hchunk
    · rw [if_neg hle] at hchunk
      by_cases h : cur = []
      · rw [if_pos h] at hchunk
        refine ih hws' [w] ?_ chunk hchunk
        intro _
        simpa [joinWords] using hws w (by simp)
      · rw [if_neg h] at hchunk
        rcases List.mem_cons.mp hchunk with heq | hmem
        · exact heq ▸ hcur h
        · refine ih hws' [w] ?_ chunk hmem
          intro _
          simpa [joinWords] using hws w (by simp)

/- ### Claim C4: wrap correctness -/

/-- C4: for every title whose widest single word measures at most max_width,
every line returned by wrap_text measures at most max_width, and the word
sequences of the returned lines concatenate, in order, to exactly the word
sequence of the input title (nothing dropped, duplicated, split or
reordered). -/
theorem wrap_text_sound (m : String → ℚ → ℚ) (fs mw : ℚ) (text : String)
    (h : ∀ w ∈ pySplit text, m w fs ≤ mw) :
    (∀ line ∈ wrap_text m text fs mw, m line fs ≤ mw) ∧
    ((wrap_text m text fs mw).map pySplit).flatten = pySplit text := by
  have hwords := pySplit_words text
  have hne : ∀ w ∈ pySplit text, w ≠ "" := fun w hw => (hwords w hw).1
  have hsim : wrap_text m text fs mw
      = (wrapChunks m fs mw (pySplit text) []).map joinWords := by
    have := wrapWords_eq_wrapChunks m fs mw (pySplit text) hne [] (by simp)
    simpa [wrap_text, joinWords] using this
  have hmem : ∀ chunk ∈ wrapChunks m fs mw (pySplit text) [],
      ∀ w ∈ chunk, w ∈ pySplit text := by
    intro chunk hchunk w hw
    have : w ∈ (wrapChunks m fs mw (pySplit text) []).flatten :=
      List.mem_flatten.mpr ⟨chunk, hchunk, hw⟩
    rw [wrapChunks_flatten] at this
    simpa using this
  constructor
  · intro line hline
    rw [hsim] at hline
    obtain ⟨chunk, hchunk, rfl⟩ := List.mem_map.mp hline
    exact wrapChunks_width m fs mw (pySplit text) h [] (by simp) chunk hchunk
  · rw [hsim, List.map_map]
    have hcongr : ∀ chunk ∈ wrapChunks m fs mw (pySplit text) [],
        (pySplit ∘ joinWords) chunk = id chunk := by
      intro chunk hchunk
      have : ∀ w ∈ chunk, w ≠ "" ∧ ∀ ch ∈ w.data, ¬ ch.isWhitespace :=
        fun w hw => hwords w (hmem chunk hchunk w hw)
      simpa using pySplit_joinWords chunk this
    rw [List.map_congr_left hcongr, List.map_id]
    rw [show (wrapChunks m fs mw (pySplit text) []).flatten = [] ++ pySplit text from
      wrapChunks_flatten m fs mw (pySplit text) []]
    rfl

/-- Witness for C4 at a concrete title and width. -/
theorem wrap_text_sound_witness :
    (∀ w ∈ pySplit "aa bb cc", mLen w 1 ≤ 5) ∧
    (∀ line ∈ wrap_text mLen "aa bb cc" 1 5, mLen line 1 ≤ 5) ∧
    ((wrap_text mLen "aa bb cc" 1 5).map pySplit).flatten = pySplit "aa bb cc" :=
  ⟨by decide, (wrap_text_sound mLen 1 5 "aa bb cc" (by decide)).1,
    (wrap_text_sound mLen 1 5 "aa bb cc" (by decide)).2⟩

/- ### Claim C3 (corrected): line count of the wrapper -/

/-- C3 counterexample: the whitespace-only title " " is a non-empty string,
yet wrap_text returns zero lines for it, and the empty title yields the empty
list of lines rather than a single empty line. -/
theorem wrap_text_empty_cex :
    (" " : String) ≠ "" ∧ wrap_text mLen " " 1 10 = [] ∧
      wrap_text mLen "" 1 10 ≠ [""] := by
  decide

/-- C3 as amended: for every title containing at least one word (at least one
non-whitespace character), wrap_text returns at least one line; a title with
no words — empty or whitespace-only — yields the empty list of lines. -/
theorem wrap_text_line_count (m : String → ℚ → ℚ) (text : String) (fs mw : ℚ) :
    (pySplit text ≠ [] → 1 ≤ (wrap_text m text fs mw).length) ∧
    (pySplit text = [] → wrap_text m text fs mw = []) := by
  constructor
  · intro hne
    have hwords := pySplit_words text
    have hne' : ∀ w ∈ pySplit text, w ≠ "" := fun w hw => (hwords w hw).1
    have hsim : wrap_text m text fs mw
        = (wrapChunks m fs mw (pySplit text) []).map joinWords := by
      have := wrapWords_eq_wrapChunks m fs mw (pySplit text) hne' [] (by simp)
      simpa [wrap_text, joinWords] using this
    rw [hsim]
    by_contra hlen
    have h0 : wrapChunks m fs mw (pySplit text) [] = [] := by
      rcases hq : wrapChunks m fs mw (pySplit text) [] with _ | ⟨a, l⟩
      · rfl
      · rw [hq] at hlen
        simp at hlen
    have := wrapChunks_flatten m fs mw (pySplit text) []
    rw [h0] at this
    exact hne (by simpa using this.symm)
  · intro h0
    unfold wrap_text
    rw [h0]
    rfl

/-- Witness for C3 at a concrete one-word title and a whitespace-only title. -/
theorem wrap_text_line_count_witness :
    1 ≤ (wrap_text mLen "abc def" 1 3).length ∧ wrap_text mLen "  " 1 3 = [] :=
  ⟨(wrap_text_line_count mLen "abc def" 1 3).1 (by decide),
    (wrap_text_line_count mLen "  " 1 3).2 (by decide)⟩

/- ### The page packer -/

lemma page_line_count_nil : page_line_count [] = 0 := rfl

lemma page_line_count_append (a b : List (TocEntry × List String)) :
    page_line_count (a ++ b) = page_line_count a + page_line_count b := by
  simp [page_line_count]

lemma page_line_count_singleton (e : TocEntry) (ls : List String) :
    page_line_count [(e, ls)] = (ls.length : Int) := by
  simp [page_line_count]

lemma page_line_count_flatten (l : List (List (TocEntry × List String))) :
    (l.map page_line_count).sum = page_line_count l.flatten := by
  induction l with
  | nil => rfl
  | cons p l ih => simp [page_line_count_append, ih]

lemma paginate_aux_flatten (m : String → ℚ → ℚ) (fs mw : ℚ) (cap : Int)
    (es : List TocEntry) :
    ∀ cur cnt, (paginate_aux m fs mw cap es cur cnt).flatten
      = cur ++ es.map (fun e => (e, wrapped_lines_of m fs mw e)) := by
  induction es with
  | nil =>
    intro cur cnt
    by_cases h : cur = []
    · simp [paginate_aux, h]
    · simp [paginate_aux, h]
  | cons e es ih =>
    intro cur cnt
    simp only [paginate_aux]
    by_cases h : cap < cnt + ((wrapped_lines_of m fs mw e).length : Int)
    · rw [if_pos h]
      simp only [List.flatten_cons, ih]
      simp
    · rw [if_neg h, ih]
      simp

lemma paginate_aux_closable (m : String → ℚ → ℚ) (fs mw : ℚ) (cap : Int)
    (es : List TocEntry) :
    ∀ cur cnt, cnt = page_line_count cur →
      (page_line_count cur ≤ cap ∨ ∃ x, cur = [x] ∧ cap < (x.2.length : Int)) →
      ∀ p ∈ paginate_aux m fs mw cap es cur cnt,
        page_line_count p ≤ cap ∨ ∃ x, p = [x] ∧ cap < (x.2.length : Int) := by
  induction es with
  | nil =>
    intro cur cnt hcnt hinv p hp
    by_cases h : cur = []
    · simp [paginate_aux, h] at hp
    · simp only [paginate_aux, if_neg h, List.mem_singleton] at hp
      exact hp ▸ hinv
  | cons e es ih =>
    intro cur cnt hcnt hinv p hp
    simp only [paginate_aux] at hp
    by_cases h : cap < cnt + ((wrapped_lines_of m fs mw e).length : Int)
    · rw [if_pos h] at hp
      rcases List.mem_cons.mp hp with heq | hmem
      · exact heq ▸ hinv
      · refine ih [(e, wrapped_lines_of m fs mw e)]
          ((wrapped_lines_of m fs mw e).length : Int)
          (by rw [page_line_count_singleton]) ?_ p hmem
        by_cases hbig : cap < ((wrapped_lines_of m fs mw e).length : Int)
        · exact Or.inr ⟨(e, wrapped_lines_of m fs mw e), rfl, hbig⟩
        · exact Or.inl (by rw [page_line_count_singleton]; omega)
    · rw [if_neg h] at hp
      refine ih (cur ++ [(e, wrapped_lines_of m fs mw e)])
        (cnt + ((wrapped_lines_of m fs mw e).length : Int))
        (by rw [page_line_count_append, page_line_count_singleton, hcnt]) ?_ p hp
      left
      rw [page_line_count_append, page_line_count_singleton, ← hcnt]
      omega


lemma paginate_aux_ne_nil (m : String → ℚ → ℚ) (fs mw : ℚ) (cap : Int)
    (es : List TocEntry) :
    ∀ cur cnt, cur ≠ [] →
      ∀ p ∈ paginate_aux m fs mw cap es cur cnt, p ≠ [] := by
  induction es with
  | nil =>
    intro cur cnt hcur p hp
    simp only [paginate_aux, if_neg hcur, List.mem_singleton] at hp
    exact hp ▸ hcur
  | cons e es ih =>
    intro cur cnt hcur p hp
    simp only [paginate_aux] at hp
    by_cases h : cap < cnt + ((wrapped_lines_of m fs mw e).length : Int)
    · rw [if_pos h] at hp
      rcases List.mem_cons.mp hp with heq | hmem
      · exact heq ▸ hcur
      · exact ih [(e, wrapped_lines_of m fs mw e)] _ (by simp) p hmem
    · rw [if_neg h] at hp
      exact ih (cur ++ [(e, wrapped_lines_of m fs mw e)]) _ (by simp) p hp

/- ### Claim C6: packing conservation -/

/-- C6: the concatenation of the packed pages equals the input entry sequence
(each entry paired with its wrapped lines, in input order, nothing dropped or
split), and the total line count across all pages equals the sum of the
entries' wrapped line counts. -/
theorem packing_conservation (m : String → ℚ → ℚ) (entries : List TocEntry)
    (fs mw : ℚ) (cap : Int) :
    (paginate_wrapped_entries m entries fs mw cap).flatten
        = entries.map (fun e => (e, wrapped_lines_of m fs mw e)) ∧
    ((paginate_wrapped_entries m entries fs mw cap).flatten).map Prod.fst = entries ∧
    ((paginate_wrapped_entries m entries fs mw cap).map page_line_count).sum
        = (entries.map fun e => ((wrapped_lines_of m fs mw e).length : Int)).sum := by
  have hflat := paginate_aux_flatten m fs mw cap entries [] 0
  refine ⟨by simpa using hflat, ?_, ?_⟩
  · rw [show (paginate_wrapped_entries m entries fs mw cap).flatten
        = entries.map (fun e => (e, wrapped_lines_of m fs mw e)) from by simpa using hflat]
    rw [List.map_map]
    rw [show (Prod.fst ∘ fun e => (e, wrapped_lines_of m fs mw e)) = id from rfl]
    exact List.map_id entries
  · rw [page_line_count_flatten,
      show (paginate_wrapped_entries m entries fs mw cap).flatten
        = entries.map (fun e => (e, wrapped_lines_of m fs mw e)) from by simpa using hflat]
    simp [page_line_count, List.map_map]
    rfl

/- ### Claim C7: page capacity invariant -/

lemma paginate_closable (m : String → ℚ → ℚ) (entries : List TocEntry)
    (fs mw : ℚ) (cap : Int) (hcap : 0 ≤ cap) :
    ∀ p ∈ paginate_wrapped_entries m entries fs mw cap,
      page_line_count p ≤ cap ∨ ∃ x, p = [x] ∧ cap < (x.2.length : Int) := by
  refine paginate_aux_closable m fs mw cap entries [] 0 rfl ?_
  left
  rw [page_line_count_nil]
  omega

/-- C7: every packed page's used line count (by construction the sum of its
entries' wrapped line counts, which is what the packer's running counter
holds) is at most the capacity, except for a page holding a single entry
whose own line count exceeds the capacity. -/
theorem page_capacity_invariant (m : String → ℚ → ℚ) (entries : List TocEntry)
    (fs mw : ℚ) (cap : Int) (hcap : 0 < cap) :
    ∀ p ∈ paginate_wrapped_entries m entries fs mw cap,
      page_line_count p ≤ cap ∨ ∃ x, p = [x] ∧ cap < (x.2.length : Int) :=
  paginate_closable m entries fs mw cap hcap.le

/-- Witness for C7: capacity 1, a title wrapping to two lines; the page
holding the oversized entry satisfies the disjunction. -/
theorem page_capacity_invariant_witness :
    page_line_count [(⟨1, "aaa bbb", 0⟩, ["aaa", "bbb"])] ≤ 1 ∨
      ∃ x, [(TocEntry.mk 1 "aaa bbb" 0, ["aaa", "bbb"])] = [x] ∧ 1 < (x.2.length : Int) :=
  page_capacity_invariant mLen [⟨1, "aaa bbb", 0⟩] 1 4 1 (by decide)
    [(⟨1, "aaa bbb", 0⟩, ["aaa", "bbb"])] (by decide)

/- ### Claim C2 (corrected): page emission policy -/

/-- C2 counterexample: with positive capacity 1 and a first entry wrapping to
two lines, the packer emits an empty leading page — the source closes the
running page on overflow without checking that it is non-empty. -/
theorem paginate_empty_page_cex :
    (0 : Int) < 1 ∧ [] ∈ paginate_wrapped_entries mLen [⟨1, "aaa bbb", 0⟩] 1 4 1 := by
  decide

/-- C2 as amended: the packer closes the running page on overflow without an
emptiness check, so an emitted page can be empty, but only the first one, and
exactly when the first entry's wrapped line count exceeds the capacity; every
later page is non-empty, and an entry whose line count exceeds the capacity
still occupies a page alone (it is never dropped: the flatten equation of
the packer keeps every entry). -/
theorem paginate_page_emission (m : String → ℚ → ℚ) (entries : List TocEntry)
    (fs mw : ℚ) (cap : Int) (hcap : 0 < cap) :
    (∀ p ∈ (paginate_wrapped_entries m entries fs mw cap).tail, p ≠ []) ∧
    ((paginate_wrapped_entries m entries fs mw cap).head? = some [] ↔
      ∃ e es, entries = e :: es ∧ cap < ((wrapped_lines_of m fs mw e).length : Int)) ∧
    (∀ p ∈ paginate_wrapped_entries m entries fs mw cap, ∀ x ∈ p,
      cap < (x.2.length : Int) → p = [x]) := by
  refine ⟨?_, ⟨?_, ?_⟩, ?_⟩
  · intro p hp
    cases entries with
    | nil => simp [paginate_wrapped_entries, paginate_aux] at hp
    | cons e es =>
      unfold paginate_wrapped_entries paginate_aux at hp
      by_cases h : cap < 0 + ((wrapped_lines_of m fs mw e).length : Int)
      · rw [if_pos h] at hp
        simp only [List.tail_cons] at hp
        exact paginate_aux_ne_nil m fs mw cap es [(e, wrapped_lines_of m fs mw e)] _
          (by simp) p hp
      · rw [if_neg h] at hp
        exact paginate_aux_ne_nil m fs mw cap es ([] ++ [(e, wrapped_lines_of m fs mw e)]) _
          (by simp) p (List.mem_of_mem_tail hp)
  · intro hhead
    cases entries with
    | nil => simp [paginate_wrapped_entries, paginate_aux] at hhead
    | cons e es =>
      unfold paginate_wrapped_entries paginate_aux at hhead
      by_cases h : cap < 0 + ((wrapped_lines_of m fs mw e).length : Int)
      · exact ⟨e, es, rfl, by omega⟩
      · rw [if_neg h] at hhead
        have hne := paginate_aux_ne_nil m fs mw cap es
          ([] ++ [(e, wrapped_lines_of m fs mw e)])
          (0 + ((wrapped_lines_of m fs mw e).length : Int)) (by simp)
        rcases hq : paginate_aux m fs mw cap es ([] ++ [(e, wrapped_lines_of m fs mw e)])
            (0 + ((wrapped_lines_of m fs mw e).length : Int)) with _ | ⟨a, l⟩
        · rw [hq] at hhead
          simp at hhead
        · rw [hq] at hhead
          simp only [List.head?_cons, Option.some.injEq] at hhead
          exact absurd rfl (hhead ▸ hne a (by rw [hq]; simp))
  · rintro ⟨e, es, rfl, hbig⟩
    unfold paginate_wrapped_entries paginate_aux
    rw [if_pos (by omega)]
    rfl
  · intro p hp x hx hbig
    rcases paginate_closable m entries fs mw cap hcap.le p hp with hle | ⟨x', hx', hbig'⟩
    · exfalso
      have hxle : (x.2.length : Int) ≤ page_line_count p := by
        have hmem : ((x.2.length : Int)) ∈ p.map (fun t => ((t.2.length : Int))) :=
          List.mem_map.mpr ⟨x, hx, rfl⟩
        have hnonneg : ∀ v ∈ p.map (fun t => ((t.2.length : Int))), 0 ≤ v := by
          intro v hv
          obtain ⟨t, _, rfl⟩ := List.mem_map.mp hv
          positivity
        exact List.single_le_sum hnonneg _ hmem
      omega
    · rw [hx'] at hx
      rw [hx', List.mem_singleton.mp hx]

/-- Witness for C2 at the counterexample input: the oversized entry sits
alone on the second page and the first-page emptiness criterion holds. -/
theorem paginate_page_emission_witness :
    ((paginate_wrapped_entries mLen [⟨1, "aaa bbb", 0⟩] 1 4 1).head? = some [] ↔
      ∃ e es, [TocEntry.mk 1 "aaa bbb" 0] = e :: es ∧
        1 < ((wrapped_lines_of mLen 1 4 e).length : Int)) ∧
    [(TocEntry.mk 1 "aaa bbb" 0, ["aaa", "bbb"])] = [(⟨1, "aaa bbb", 0⟩, ["aaa", "bbb"])] :=
  ⟨(paginate_page_emission mLen [⟨1, "aaa bbb", 0⟩] 1 4 1 (by decide)).2.1,
    (paginate_page_emission mLen [⟨1, "aaa bbb", 0⟩] 1 4 1 (by decide)).2.2
      [(⟨1, "aaa bbb", 0⟩, ["aaa", "bbb"])] (by decide)
      (⟨1, "aaa bbb", 0⟩, ["aaa", "bbb"]) (by decide) (by decide)⟩

/- ### The layout emitter -/

lemma max0_pytrunc (q : ℚ) : max 0 (pytrunc q) = max 0 ⌊q⌋ := by
  unfold pytrunc
  by_cases h : 0 ≤ q
  · rw [if_pos h]
  · rw [if_neg h]
    push_neg at h
    have h1 : ⌊q⌋ ≤ 0 := Int.floor_nonpos h.le
    have h2 : 0 ≤ ⌊-q⌋ := Int.floor_nonneg.mpr (by linarith)
    omega

lemma render_entry_lines_y (m : String → ℚ → ℚ) (fs x mxd pnx : ℚ) (pns : String)
    (sp : ℚ) (ls : List String) :
    ∀ y, (render_entry_lines m fs x mxd pnx pns sp ls y).2 = y + (ls.length : ℚ) * sp := by
  induction ls with
  | nil => intro y; simp [render_entry_lines]
  | cons l rest ih =>
    intro y
    cases rest with
    | nil => simp [render_entry_lines]
    | cons r rs =>
      rw [show (render_entry_lines m fs x mxd pnx pns sp (l :: r :: rs) y).2
          = (render_entry_lines m fs x mxd pnx pns sp (r :: rs) (y + sp)).2 from rfl,
        ih (y + sp)]
      simp only [List.length_cons]
      push_cast
      ring

lemma render_entry_lines_shape (m : String → ℚ → ℚ) (fs x mxd pnx : ℚ) (pns : String)
    (sp : ℚ) (ls : List String) (h : ls ≠ []) :
    ∀ y, ((render_entry_lines m fs x mxd pnx pns sp ls y).1).map (fun op => (op.x, op.text))
      = ls.dropLast.map (fun l => (x, l)) ++
        [(x, ls.getLast h ++ " " ++ String.mk (List.replicate
            (max 0 (pytrunc ((mxd - (x + m (ls.getLast h) fs + 10)) / m "." fs))).toNat '.')),
         (pnx, pns)] := by
  induction ls with
  | nil => exact absurd rfl h
  | cons l rest ih =>
    intro y
    cases rest with
    | nil => simp [render_entry_lines]
    | cons r rs =>
      have hne : (r :: rs) ≠ [] := by simp
      show ((⟨x, y, l⟩ :: (render_entry_lines m fs x mxd pnx pns sp (r :: rs) (y + sp)).1).map
          (fun op => (op.x, op.text))) = _
      rw [List.map_cons, ih hne (y + sp)]
      rw [show (l :: r :: rs).dropLast = l :: (r :: rs).dropLast from rfl]
      rw [show (l :: r :: rs).getLast h = (r :: rs).getLast hne from
        List.getLast_cons hne]
      simp

/- ### Claim C5 (corrected): leader dots and last-line decoration -/

/-- C5 counterexample: with unit character widths, page width 200, level-1
entry "ab" on a single TOC page targeting page 0, the code draws 72 leader
dots, while the claimed formula (available = columnRightEdge −
pageNumberWidth − (lineStartX + lineWidth + gap), gap = 10, minimumDots = 0,
columnRightEdge = page_width − right_margin) predicts
max 0 ⌊(140 − 1 − 62) / 1⌋ = 77 dots: the source subtracts an extra 5 when
fixing the dot column edge. -/
theorem leader_dots_gap_cex :
    ((generate_toc_pages mLen [[(⟨1, "ab", 0⟩, ["ab"])]] 1 200 800).1.map TocPage.ops)
      = [[⟨50, 50, "ab " ++ String.mk (List.replicate 72 '.')⟩, ⟨139, 50, "2"⟩]] ∧
    (72 : Int) ≠ max 0 ⌊(((200 : ℚ) - 60) - 1 - (50 + 2 + 10)) / 1⌋ := by
  decide

/-- C5 as amended: for every entry, only the last wrapped line receives leader
dots and the page-number string (earlier lines are inserted as bare title
text at the entry's indent), and the leader is exactly dotCount repetitions
of the dot character, with dotCount = max(0, ⌊available / dotWidth⌋) and
available = columnRightEdge − pageNumberWidth − 5 − (lineStartX + lineWidth +
10): the code subtracts 5 more than the specified gap of 10, and its
minimum-dot floor is 0.  (Python truncates toward zero; under the max-with-0
clamp that coincides with the floor.) -/
theorem leader_dots_policy (m : String → ℚ → ℚ) (fs pw : ℚ) (N : Nat) (e : TocEntry)
    (ls : List String) (y : ℚ) (h : ls ≠ []) :
    ((render_entry m fs pw N e ls y).1).map (fun op => (op.x, op.text))
      = ls.dropLast.map (fun l => (left_margin + 20 * ((e.level : ℚ) - 1), l)) ++
        [(left_margin + 20 * ((e.level : ℚ) - 1),
          ls.getLast h ++ " " ++ String.mk (List.replicate
            (max 0 ⌊((pw - right_margin - m (toString (e.target_page + (N : Int) + 1)) fs - 5)
                - (left_margin + 20 * ((e.level : ℚ) - 1) + m (ls.getLast h) fs + 10))
              / m "." fs⌋).toNat '.')),
         (pw - right_margin - m (toString (e.target_page + (N : Int) + 1)) fs,
          toString (e.target_page + (N : Int) + 1))] := by
  have hs := render_entry_lines_shape m fs (left_margin + 20 * ((e.level : ℚ) - 1))
    (pw - right_margin - m (toString (e.target_page + (N : Int) + 1)) fs - 5)
    (pw - right_margin - m (toString (e.target_page + (N : Int) + 1)) fs)
    (toString (e.target_page + (N : Int) + 1)) (fs * (3 / 2)) ls h y
  rw [show (render_entry m fs pw N e ls y).1
      = (render_entry_lines m fs (left_margin + 20 * ((e.level : ℚ) - 1))
          (pw - right_margin - m (toString (e.target_page + (N : Int) + 1)) fs - 5)
          (pw - right_margin - m (toString (e.target_page + (N : Int) + 1)) fs)
          (toString (e.target_page + (N : Int) + 1)) (fs * (3 / 2)) ls y).1 from rfl,
    hs, max0_pytrunc]

/-- Witness for C5: the concrete layout of the counterexample input, obtained
through the amended formula. -/
theorem leader_dots_policy_witness :
    ((render_entry mLen 1 200 1 ⟨1, "ab", 0⟩ ["ab"] 50).1).map (fun op => (op.x, op.text))
      = [(50, "ab " ++ String.mk (List.replicate 72 '.')), (139, "2")] := by
  rw [leader_dots_policy mLen 1 200 1 ⟨1, "ab", 0⟩ ["ab"] 50 (by decide)]
  decide

lemma getLast?_append_pair {α : Type} (A : List α) (b1 b2 : α) :
    (A ++ [b1, b2]).getLast? = some b2 := by
  rw [show A ++ [b1, b2] = (A ++ [b1]) ++ [b2] from by simp]
  exact List.getLast?_concat _

/- ### Claim C1: single-pass offset resolution -/

/-- C1: the page offset equals the number of packed TOC pages (main sets
toc_page_count to the length of the paginated list, in a single pass), and
for every entry the displayed page-number string — the text of the final,
right-aligned insertion the renderer emits for the entry, at the page-number
count main passes to it — is str(target_page + page_offset + 1). -/
theorem offset_single_pass (m : String → ℚ → ℚ) (raw_toc : List (Int × String × Int))
    (bms : List (List BmVal)) (sw sh fs : ℚ) :
    (main_core m raw_toc bms sw sh fs).toc_page_count
        = (main_core m raw_toc bms sw sh fs).paginated.length ∧
    ∀ e ls, (e, ls) ∈ (main_core m raw_toc bms sw sh fs).paginated.flatten → ls ≠ [] →
      ∀ y : ℚ,
      (((render_entry m fs fitz_paper_size_a4.1
            (main_core m raw_toc bms sw sh fs).toc_page_count e ls y).1).map
          (fun op => (op.x, op.text))).getLast?
        = some (fitz_paper_size_a4.1 - right_margin
              - m (toString (e.target_page
                  + ((main_core m raw_toc bms sw sh fs).paginated.length : Int) + 1)) fs,
            toString (e.target_page
              + ((main_core m raw_toc bms sw sh fs).paginated.length : Int) + 1)) := by
  refine ⟨rfl, ?_⟩
  intro e ls _ h y
  rw [show (render_entry m fs fitz_paper_size_a4.1
        (main_core m raw_toc bms sw sh fs).toc_page_count e ls y).1
      = (render_entry_lines m fs (left_margin + 20 * ((e.level : ℚ) - 1))
          (fitz_paper_size_a4.1 - right_margin
            - m (toString (e.target_page
                + (((main_core m raw_toc bms sw sh fs).toc_page_count : Nat) : Int) + 1)) fs - 5)
          (fitz_paper_size_a4.1 - right_margin
            - m (toString (e.target_page
                + (((main_core m raw_toc bms sw sh fs).toc_page_count : Nat) : Int) + 1)) fs)
          (toString (e.target_page
            + (((main_core m raw_toc bms sw sh fs).toc_page_count : Nat) : Int) + 1))
          (fs * (3 / 2)) ls y).1 from rfl,
    render_entry_lines_shape]
  · exact getLast?_append_pair _ _ _
  · exact h

/-- Witness for C1 with a one-entry document. -/
theorem offset_single_pass_witness :
    (((render_entry mLen 1 fitz_paper_size_a4.1
          (main_core mLen [(1, "Intro", 1)] [] 0 0 1).toc_page_count
          ⟨1, "Intro", 0⟩ ["Intro"] 50).1).map (fun op => (op.x, op.text))).getLast?
      = some (fitz_paper_size_a4.1 - right_margin
            - mLen (toString ((0 : Int)
                + ((main_core mLen [(1, "Intro", 1)] [] 0 0 1).paginated.length : Int) + 1)) 1,
          toString ((0 : Int)
            + ((main_core mLen [(1, "Intro", 1)] [] 0 0 1).paginated.length : Int) + 1)) :=
  (offset_single_pass mLen [(1, "Intro", 1)] [] 0 0 1).2 ⟨1, "Intro", 0⟩ ["Intro"]
    (by decide) (by decide) 50

lemma render_entry_snd (m : String → ℚ → ℚ) (fs pw : ℚ) (N : Nat) (e : TocEntry)
    (ls : List String) (y : ℚ) :
    (render_entry m fs pw N e ls y).2
      = (Rect.mk (left_margin + 20 * ((e.level : ℚ) - 1)) (y - fs) (pw - right_margin)
          (y + (ls.length : ℚ) * (fs * (3 / 2))),
         y + (ls.length : ℚ) * (fs * (3 / 2))) := by
  rw [show (render_entry m fs pw N e ls y).2
      = (Rect.mk (left_margin + 20 * ((e.level : ℚ) - 1)) (y - fs) (pw - right_margin)
          (render_entry_lines m fs (left_margin + 20 * ((e.level : ℚ) - 1))
            (pw - right_margin - m (toString (e.target_page + (N : Int) + 1)) fs - 5)
            (pw - right_margin - m (toString (e.target_page + (N : Int) + 1)) fs)
            (toString (e.target_page + (N : Int) + 1)) (fs * (3 / 2)) ls y).2,
         (render_entry_lines m fs (left_margin + 20 * ((e.level : ℚ) - 1))
            (pw - right_margin - m (toString (e.target_page + (N : Int) + 1)) fs - 5)
            (pw - right_margin - m (toString (e.target_page + (N : Int) + 1)) fs)
            (toString (e.target_page + (N : Int) + 1)) (fs * (3 / 2)) ls y).2) from rfl,
    render_entry_lines_y]

lemma render_page_entries_targets (m : String → ℚ → ℚ) (fs pw : ℚ) (N : Nat)
    (p : Nat) (es : List (TocEntry × List String)) :
    ∀ y, ((render_page_entries m fs pw N es y).2.1).map (fun rt => (p, rt.1, rt.2))
      = spec_link_targets fs pw p es y := by
  induction es with
  | nil => intro y; rfl
  | cons hd rest ih =>
    intro y
    obtain ⟨e, ls⟩ := hd
    show (((render_entry m fs pw N e ls y).2.1, e.target_page) ::
        (render_page_entries m fs pw N rest (render_entry m fs pw N e ls y).2.2).2.1).map
          (fun rt => (p, rt.1, rt.2))
      = spec_link_targets fs pw p ((e, ls) :: rest) y
    rw [List.map_cons, show (render_entry m fs pw N e ls y).2.2
        = y + (ls.length : ℚ) * (fs * (3 / 2)) from by rw [render_entry_snd], ih]
    rw [show (render_entry m fs pw N e ls y).2.1
        = Rect.mk (left_margin + 20 * ((e.level : ℚ) - 1)) (y - fs) (pw - right_margin)
            (y + (ls.length : ℚ) * (fs * (3 / 2))) from by rw [render_entry_snd]]
    rfl

lemma spec_link_targets_length (fs pw : ℚ) (p : Nat) (es : List (TocEntry × List String)) :
    ∀ y, (spec_link_targets fs pw p es y).length = es.length := by
  induction es with
  | nil => intro y; rfl
  | cons hd rest ih =>
    intro y
    obtain ⟨e, ls⟩ := hd
    show (spec_link_targets fs pw p rest
        (y + (ls.length : ℚ) * (fs * (3 / 2)))).length + 1 = rest.length + 1
    rw [ih]

lemma generate_toc_pages_targets (m : String → ℚ → ℚ)
    (pag : List (List (TocEntry × List String))) (fs pw ph : ℚ) :
    (generate_toc_pages m pag fs pw ph).2
      = (pag.enum.map (fun pe => spec_link_targets fs pw pe.1 pe.2 top_margin)).flatten := by
  unfold generate_toc_pages
  simp only [List.map_map]
  congr 1
  apply List.map_congr_left
  intro pe _
  exact render_page_entries_targets m fs pw pag.length pe.1 pe.2 top_margin

lemma generate_toc_pages_targets_length (m : String → ℚ → ℚ)
    (pag : List (List (TocEntry × List String))) (fs pw ph : ℚ) :
    (generate_toc_pages m pag fs pw ph).2.length = pag.flatten.length := by
  rw [generate_toc_pages_targets, List.length_flatten, List.length_flatten, List.map_map]
  congr 1
  have hcong : ∀ pe ∈ pag.enum,
      (List.length ∘ fun pe => spec_link_targets fs pw pe.1 pe.2 top_margin) pe
        = (List.length ∘ Prod.snd) pe := by
    intro pe _
    exact spec_link_targets_length fs pw pe.1 pe.2 top_margin
  rw [List.map_congr_left hcong, ← List.map_map, List.enum_map_snd]

lemma map_const_replicate {α β : Type} (l : List α) (b : β) :
    l.map (fun _ => b) = List.replicate l.length b := by
  induction l with
  | nil => rfl
  | cons a l ih => simp [ih, List.replicate]

/- ### Claim C8: link coverage and rectangles -/

/-- C8: the emitted link targets are exactly one per entry, in input order:
they equal the spec-side list whose k-th element carries the page index of
the entry's page, the rectangle spanning from the entry's indented x and its
first line's top (baseline minus font size) to the right margin and the y
cursor after its last line, and the zero-based target page; after
add_toc_hyperlinks every destination is target_page + toc_page_count, and at
the main level the number of links equals the number of input TOC entries. -/
theorem link_targets_exact (m : String → ℚ → ℚ)
    (paginated : List (List (TocEntry × List String))) (fs pw ph : ℚ)
    (raw_toc : List (Int × String × Int)) (bms : List (List BmVal)) (sw sh fs2 : ℚ) :
    (generate_toc_pages m paginated fs pw ph).2
        = (paginated.enum.map (fun pe => spec_link_targets fs pw pe.1 pe.2 top_margin)).flatten ∧
    (generate_toc_pages m paginated fs pw ph).2.length = paginated.flatten.length ∧
    add_toc_hyperlinks (generate_toc_pages m paginated fs pw ph).2 (paginated.length : Int)
        = ((paginated.enum.map (fun pe => spec_link_targets fs pw pe.1 pe.2 top_margin)).flatten).map
            (fun t => ⟨t.1, t.2.1, t.2.2 + (paginated.length : Int)⟩) ∧
    (main_core m raw_toc bms sw sh fs2).links.length
        = (main_core m raw_toc bms sw sh fs2).entries.length := by
  refine ⟨generate_toc_pages_targets m paginated fs pw ph,
    generate_toc_pages_targets_length m paginated fs pw ph, ?_, ?_⟩
  · rw [show add_toc_hyperlinks (generate_toc_pages m paginated fs pw ph).2
          (paginated.length : Int)
        = ((generate_toc_pages m paginated fs pw ph).2).map
            (fun t => ⟨t.1, t.2.1, t.2.2 + (paginated.length : Int)⟩) from rfl,
      generate_toc_pages_targets m paginated fs pw ph]
  · show (add_toc_hyperlinks (generate_toc_pages m
        (paginate_wrapped_entries m (extract_toc_entries raw_toc) fs2
          (fitz_paper_size_a4.1 - 120) 38) fs2 fitz_paper_size_a4.1 fitz_paper_size_a4.2).2
        ((paginate_wrapped_entries m (extract_toc_entries raw_toc) fs2
          (fitz_paper_size_a4.1 - 120) 38).length : Int)).length
      = (extract_toc_entries raw_toc).length
    rw [show ∀ lts N, (add_toc_hyperlinks lts N).length = lts.length from
      fun lts N => List.length_map lts _]
    rw [generate_toc_pages_targets_length]
    rw [show (paginate_wrapped_entries m (extract_toc_entries raw_toc) fs2
          (fitz_paper_size_a4.1 - 120) 38).flatten
        = (extract_toc_entries raw_toc).map
            (fun e => (e, wrapped_lines_of m fs2 (fitz_paper_size_a4.1 - 120) e)) from by
      simpa using paginate_aux_flatten m fs2 (fitz_paper_size_a4.1 - 120) 38
        (extract_toc_entries raw_toc) [] 0]
    rw [List.length_map]

/- ### Claim C10: fixed A4 geometry -/

lemma generate_pages_dims (m : String → ℚ → ℚ)
    (pag : List (List (TocEntry × List String))) (fs pw ph : ℚ) :
    (generate_toc_pages m pag fs pw ph).1.map (fun p => (p.width, p.height))
      = List.replicate pag.length (pw, ph) := by
  have hfst : (generate_toc_pages m pag fs pw ph).1
      = pag.enum.map (fun pi => TocPage.mk pw ph
          (render_page_entries m fs pw pag.length pi.2 top_margin).1) := by
    unfold generate_toc_pages
    simp only [List.map_map]
    rfl
  rw [hfst, List.map_map]
  rw [show ((fun p : TocPage => (p.width, p.height)) ∘ fun pi :
        Nat × List (TocEntry × List String) => TocPage.mk pw ph
          (render_page_entries m fs pw pag.length pi.2 top_margin).1)
      = (fun _ => ((pw, ph) : ℚ × ℚ)) from rfl]
  rw [map_const_replicate, List.enum_length]

/-- C10: the generated TOC pages all carry the fixed A4 dimensions taken from
the paper-size constant (595 x 842), the wrapping column width is that A4
width minus 120 units, and the whole computation is unchanged under any
source-document page dimensions — the geometry is never derived from them. -/
theorem a4_fixed_geometry (m : String → ℚ → ℚ) (raw_toc : List (Int × String × Int))
    (bms : List (List BmVal)) (sw sh sw2 sh2 fs : ℚ) :
    main_core m raw_toc bms sw sh fs = main_core m raw_toc bms sw2 sh2 fs ∧
    (main_core m raw_toc bms sw sh fs).toc_pages.map (fun p => (p.width, p.height))
        = List.replicate (main_core m raw_toc bms sw sh fs).paginated.length
            (fitz_paper_size_a4.1, fitz_paper_size_a4.2) ∧
    fitz_paper_size_a4 = (595, 842) ∧
    (main_core m raw_toc bms sw sh fs).paginated
        = paginate_wrapped_entries m (extract_toc_entries raw_toc) fs
            (fitz_paper_size_a4.1 - 120) 38 :=
  ⟨rfl, generate_pages_dims m _ fs fitz_paper_size_a4.1 fitz_paper_size_a4.2, rfl, rfl⟩

/- ### Claim C9: the bookmark shifter -/

lemma shift_bookmark_ok (offset : Int) :
    ∀ L : List (List BmVal),
      (∀ bm ∈ L, ∀ l t p r, bm = l :: t :: p :: r → ∃ n, p = BmVal.int n) →
      shift_bookmark_pages L offset
        = some ((L.filter bm_well_formed).map (shifted_form offset)) := by
  intro L
  induction L with
  | nil => intro _; rfl
  | cons bm rest ih =>
    intro h
    have hrest := fun b hb => h b (List.mem_cons_of_mem bm hb)
    rcases bm with _ | ⟨l, _ | ⟨t, _ | ⟨p, r⟩⟩⟩
    · show shift_bookmark_pages rest offset = _
      rw [ih hrest]
      rfl
    · show shift_bookmark_pages rest offset = _
      rw [ih hrest]
      rfl
    · show shift_bookmark_pages rest offset = _
      rw [ih hrest]
      rfl
    · obtain ⟨n, rfl⟩ := h (l :: t :: p :: r) (by simp) l t p r rfl
      show (shift_bookmark_pages rest offset).map
          (fun tl => [l, t, BmVal.int (n + offset)] :: tl) = _
      rw [ih hrest]
      rw [List.filter_cons_of_pos (by simp [bm_well_formed])]
      rfl

lemma shift_output_form (k : Int) :
    ∀ (L S : List (List BmVal)), shift_bookmark_pages L k = some S →
      ∀ bm ∈ S, ∃ l t n, bm = [l, t, BmVal.int n] := by
  intro L
  induction L with
  | nil =>
    intro S hS bm hbm
    simp only [shift_bookmark_pages, Option.some.injEq] at hS
    subst hS
    simp at hbm
  | cons b rest ih =>
    intro S hS bm hbm
    rcases b with _ | ⟨l, _ | ⟨t, _ | ⟨p, r⟩⟩⟩
    · exact ih S hS bm hbm
    · exact ih S hS bm hbm
    · exact ih S hS bm hbm
    · cases p with
      | str s =>
        rw [show shift_bookmark_pages ((l :: t :: BmVal.str s :: r) :: rest) k
            = none from rfl] at hS
        exact absurd hS (by simp)
      | int n =>
        rw [show shift_bookmark_pages ((l :: t :: BmVal.int n :: r) :: rest) k
            = (shift_bookmark_pages rest k).map
                (fun tl => [l, t, BmVal.int (n + k)] :: tl) from rfl] at hS
        rcases hq : shift_bookmark_pages rest k with _ | tl
        · rw [hq] at hS
          simp at hS
        · rw [hq] at hS
          simp only [Option.map_some', Option.some.injEq] at hS
          subst hS
          rcases List.mem_cons.mp hbm with heq | hmem
          · exact ⟨l, t, n + k, heq⟩
          · exact ih tl hq bm hmem

lemma shift_zero_of_form :
    ∀ S : List (List BmVal), (∀ bm ∈ S, ∃ l t n, bm = [l, t, BmVal.int n]) →
      shift_bookmark_pages S 0 = some S := by
  intro S
  induction S with
  | nil => intro _; rfl
  | cons bm rest ih =>
    intro h
    obtain ⟨l, t, n, rfl⟩ := h bm (by simp)
    show (shift_bookmark_pages rest 0).map
        (fun tl => [l, t, BmVal.int (n + 0)] :: tl) = _
    rw [ih (fun b hb => h b (List.mem_cons_of_mem _ hb))]
    simp

/-- C9: the bookmark shifter drops exactly the raw outline entries with fewer
than three fields and maps each remaining (level, title, page) entry to
(level, title, page + offset) in order (stated for integer page fields, the
only values PyMuPDF produces; a non-integer third field would raise in
Python, modelled as `none`); shifting any successful output again by offset 0
is a no-op, and the length-based filtering is idempotent. -/
theorem bookmark_shift_spec (bookmarks : List (List BmVal)) (offset k : Int)
    (h : ∀ bm ∈ bookmarks, ∀ l t p r, bm = l :: t :: p :: r → ∃ n, p = BmVal.int n) :
    shift_bookmark_pages bookmarks offset
        = some ((bookmarks.filter bm_well_formed).map (shifted_form offset)) ∧
    (∀ S, shift_bookmark_pages bookmarks k = some S →
      shift_bookmark_pages S 0 = some S) ∧
    (bookmarks.filter bm_well_formed).filter bm_well_formed
        = bookmarks.filter bm_well_formed :=
  ⟨shift_bookmark_ok offset bookmarks h,
    fun S hS => shift_zero_of_form S (shift_output_form k bookmarks S hS),
    by simp [List.filter_filter]⟩

/-- Witness for C9: a malformed one-field entry is dropped, the well-formed
entry is shifted by 5, and re-shifting the result by 0 changes nothing. -/
theorem bookmark_shift_spec_witness :
    shift_bookmark_pages [[BmVal.int 1, BmVal.str "Intro", BmVal.int 3], [BmVal.int 2]] 5
        = some (([[BmVal.int 1, BmVal.str "Intro", BmVal.int 3],
            [BmVal.int 2]].filter bm_well_formed).map (shifted_form 5)) ∧
    shift_bookmark_pages [[BmVal.int 1, BmVal.str "Intro", BmVal.int 8]] 0
        = some [[BmVal.int 1, BmVal.str "Intro", BmVal.int 8]] := by
  have h : ∀ bm ∈ [[BmVal.int 1, BmVal.str "Intro", BmVal.int 3], [BmVal.int 2]],
      ∀ l t p r, bm = l :: t :: p :: r → ∃ n, p = BmVal.int n := by
    intro bm hbm l t p r heq
    simp only [List.mem_cons, List.mem_singleton, List.not_mem_nil, or_false] at hbm
    rcases hbm with rfl | rfl
    · simp only [List.cons.injEq] at heq
      exact ⟨3, heq.2.2.1.symm⟩
    · simp at heq
  exact ⟨(bookmark_shift_spec [[BmVal.int 1, BmVal.str "Intro", BmVal.int 3],
      [BmVal.int 2]] 5 5 h).1,
    (bookmark_shift_spec [[BmVal.int 1, BmVal.str "Intro", BmVal.int 3],
      [BmVal.int 2]] 5 5 h).2.1 [[BmVal.int 1, BmVal.str "Intro", BmVal.int 8]] (by decide)⟩
